import Mathlib

/-!
Shallow embedding of `src/LLMProviders/chainRunner/utils/ActionBlockStreamer.ts`.

Strings are modelled as `List Char`.  The three JavaScript regexes of the file
(`stripCodeFences`, the block regex of `findCompleteBlock`, and the two field
regexes of `processChunk`) are modelled by explicit first-occurrence scans with
the exact leftmost / lazy / greedy semantics of the originals.  The awaited
`toolManager.callTool` together with `ToolResultFormatter.format` is modelled
as an oracle function returning `Except` (a thrown error is `Except.error`).
Recursions that in the source advance a mutable buffer are fuelled by the
buffer length, which is always sufficient because every loop iteration
consumes at least one buffered character.
-/

namespace ActionBlockStreamer

abbrev Str := List Char

/-- The whitespace class of JavaScript regex `\s` (also used by
`String.prototype.trim`). -/
def isJsWs (c : Char) : Bool :=
  c == ' ' || c == '\t' || c == '\n' || c == '\r' || c == '\x0b' || c == '\x0c' ||
  c == '\u00A0' || c == '\u1680' || ('\u2000' ≤ c && c ≤ '\u200A') ||
  c == '\u2028' || c == '\u2029' || c == '\u202F' || c == '\u205F' ||
  c == '\u3000' || c == '\uFEFF'

/-- `String.prototype.trim`. -/
def trim (s : Str) : Str := ((s.dropWhile isJsWs).reverse.dropWhile isJsWs).reverse

/-- Length of the leading whitespace run (what a greedy `\s*` consumes). -/
def wsRun (s : Str) : Nat := (s.takeWhile isJsWs).length

/-- `String.prototype.indexOf`: position of the first occurrence of `pat`. -/
def indexOf (pat : Str) : Str → Option Nat
  | [] =>
    match pat.isPrefixOf ([] : Str) with
    | true => some 0
    | false => none
  | c :: t =>
    match pat.isPrefixOf (c :: t) with
    | true => some 0
    | false => (indexOf pat t).map (· + 1)

def OPENTAG : Str := "<writeToFile>".data
def CLOSETAG : Str := "</writeToFile>".data
def FENCE : Str := "```".data
def XMLTAG : Str := "xml".data
def PATHOPEN : Str := "<path>".data
def PATHCLOSE : Str := "</path>".data
def CONTENTOPEN : Str := "<content>".data
def CONTENTCLOSE : Str := "</content>".data

/-- Backtracking search for the tail `[\s\S]*?` (inside group 1) followed by
`\s*` and the closing fence literal in the `stripCodeFences` regex: the regex
engine tries the lazy length `c = 0, 1, 2, …` and, at each `c`, the greedy
`\s*`; because a backtick is not whitespace, the greedy star is forced to the
full whitespace run.  Returns `(c, e)` where `c` is the number of characters
the lazy star adds to group 1 and `e` is the end of the whole match, both
relative to the given string. -/
def tailFenceSearch : Str → Option (Nat × Nat)
  | [] => none
  | c :: t =>
    match FENCE.isPrefixOf ((c :: t).drop (wsRun (c :: t))) with
    | true => some (0, wsRun (c :: t) + FENCE.length)
    | false => (tailFenceSearch t).map (fun p => (p.1 + 1, p.2 + 1))

/-- One leftmost match of the global regex
`/```(?:xml)?\s*([\s\S]*?<writeToFile>[\s\S]*?<\/writeToFile>[\s\S]*?)\s*```/g`
of `stripCodeFences`.  The leftmost match starts at the first fence literal:
if the chain open-tag / close-tag / final fence cannot be completed after the
first fence, it cannot be completed after any later one, so there is no match
at all.  The optional `xml` and the greedy `\s*` are forced (no later part of
the pattern can consume their characters, which never start `<writeToFile>`).
-/
structure StripMatch where
  start : Nat       -- start of the whole match; characters before it are kept
  groupStart : Nat  -- start of capture group 1
  groupEnd : Nat    -- end of capture group 1 (the replacement text)
  matchEnd : Nat    -- end of the whole match; the global scan resumes here
deriving DecidableEq, Repr

def stripMatch (s : Str) : Option StripMatch :=
  match indexOf FENCE s with
  | none => none
  | some p =>
    let xmlLen :=
      match XMLTAG.isPrefixOf (s.drop (p + FENCE.length)) with
      | true => XMLTAG.length
      | false => 0
    let g := p + FENCE.length + xmlLen + wsRun (s.drop (p + FENCE.length + xmlLen))
    match indexOf OPENTAG (s.drop g) with
    | none => none
    | some oRel =>
      match indexOf CLOSETAG (s.drop (g + oRel + OPENTAG.length)) with
      | none => none
      | some jRel =>
        let e := g + oRel + OPENTAG.length + jRel + CLOSETAG.length
        match tailFenceSearch (s.drop e) with
        | none => none
        | some (c, fe) => some ⟨p, g, e + c, e + fe⟩

/-- Fuelled global replace: prefix before the match, then group 1, then the
scan resumes after the match end (exactly `String.prototype.replace` with a
`/g` regex and `"$1"`). -/
def stripF : Nat → Str → Str
  | 0, s => s
  | fuel + 1, s =>
    match stripMatch s with
    | none => s
    | some m =>
      s.take m.start ++ (s.drop m.groupStart).take (m.groupEnd - m.groupStart) ++
        stripF fuel (s.drop m.matchEnd)

/-- `stripCodeFences` (lines 25–31 of the source).  Fuel `s.length` always
suffices: every match ends strictly after its start. -/
def stripCodeFences (s : Str) : Str := stripF s.length s

/-- First match of the lazy block regex `/<writeToFile>[\s\S]*?<\/writeToFile>/`:
the first open tag, extended to the earliest close tag after it.  (If the first
open tag has no close tag after it, no later open tag has one either, so the
regex fails.) -/
def blockMatch (s : Str) : Option Str :=
  match indexOf OPENTAG s with
  | none => none
  | some i =>
    match indexOf CLOSETAG (s.drop (i + OPENTAG.length)) with
    | none => none
    | some j => some ((s.drop i).take (OPENTAG.length + j + CLOSETAG.length))

structure FindResult where
  block : Str
  endIdx : Nat
deriving DecidableEq, Repr

/-- `findCompleteBlock` (lines 33–57 of the source): match on the fence-stripped
buffer, but compute the consumed end index on the original buffer from the
*first* occurrence of the close tag (`str.indexOf`), then skip one trailing
`/^\s*```/` fence.  When `indexOf` would return `-1` the source still adds the
tag length, yielding `13`; that arithmetic is mirrored here (it is unreachable:
a match in the stripped buffer implies a close tag in the original). -/
def findCompleteBlock (s : Str) : Option FindResult :=
  let cleaned := stripCodeFences s
  match blockMatch cleaned with
  | none => none
  | some blk =>
    let wEnd : Nat :=
      match indexOf CLOSETAG s with
      | some k => k + CLOSETAG.length
      | none => CLOSETAG.length - 1
    let after := s.drop wEnd
    let fence : Nat :=
      match FENCE.isPrefixOf (after.drop (wsRun after)) with
      | true => wsRun after + FENCE.length
      | false => 0
    some ⟨blk, wEnd + fence⟩

/-- A content item of a Claude thinking-model array chunk: only `text`-typed
items with non-null text contribute streamed text. -/
inductive Segment where
  | text (s : Str)
  | other
deriving DecidableEq, Repr

/-- `chunk.content`: an array of segments, a plain string, or null/undefined. -/
inductive ChunkContent where
  | arr (items : List Segment)
  | str (s : Str)
  | null
deriving DecidableEq, Repr

structure Chunk where
  content : ChunkContent
deriving DecidableEq, Repr

def segText : Segment → Str
  | .text s => s
  | .other => []

/-- Chunk-content normalization (lines 60–74 of the source). -/
def chunkText : ChunkContent → Str
  | .arr items => (items.map segText).flatten
  | .str s => s
  | .null => []

/-- The argument record of `toolManager.callTool(writeToFileTool, {...})`. -/
structure ToolCall where
  path : Str
  content : Str
  confirmation : Bool
deriving DecidableEq, Repr

/-- The externally supplied side effect: `callTool` composed with
`ToolResultFormatter.format` input; `Except.error msg` models a thrown error
whose `err.message` is `msg`. -/
abbrev Oracle := ToolCall → Except Str Str

/-- `ToolResultFormatter.format ("writeToFile", ·)`. -/
abbrev Fmt := Str → Str

/-- An outgoing chunk: either the original chunk passed through, or a synthetic
status chunk `{...chunk, content: text}` cloned from `base`. -/
inductive OutChunk where
  | orig (c : Chunk)
  | status (base : Chunk) (text : Str)
deriving DecidableEq, Repr

/-- First match of a field regex `/<tag>([\s\S]*?)<\/tag>/`: group 1 between
the first open tag and the earliest close tag after it. -/
def matchGroup (tagO tagC : Str) (s : Str) : Option Str :=
  match indexOf tagO s with
  | none => none
  | some i =>
    match indexOf tagC (s.drop (i + tagO.length)) with
    | none => none
    | some j => some ((s.drop (i + tagO.length)).take j)

/-- `pathMatch ? pathMatch[1].trim() : undefined` (line 93). -/
def filePathOf (block : Str) : Option Str := (matchGroup PATHOPEN PATHCLOSE block).map trim

/-- `contentMatch ? contentMatch[1].trim() : undefined` (line 94). -/
def fileContentOf (block : Str) : Option Str :=
  (matchGroup CONTENTOPEN CONTENTCLOSE block).map trim

/-- `{ path: filePath, content: fileContent || "", confirmation: false }`
(lines 115–119). -/
def callOf (block : Str) : ToolCall :=
  ⟨(filePathOf block).getD [], (fileContentOf block).getD [], false⟩

/-- The synthetic status chunk text: `` `\n${formattedResult}\n` `` on success,
`` `\nError: ${err?.message || err}\n` `` on a thrown error (lines 122–126). -/
def statusText (o : Oracle) (f : Fmt) (call : ToolCall) : Str :=
  match o call with
  | .ok res => '\n' :: (f res ++ ['\n'])
  | .error msg => '\n' :: ("Error: ".data ++ (msg ++ ['\n']))

/-- The `while (blockInfo)` loop of `processChunk` (lines 85–134), fuelled.
Yields the status chunks in order, returns the final buffer and the list of
`callTool` invocations actually performed.  A block whose `filePath` is
`undefined` or trims to the empty string (JavaScript `!filePath`) is skipped
with no call; otherwise the tool is called exactly once and the buffer is
advanced past `endIdx` in both cases. -/
def drainBlocksF (o : Oracle) (f : Fmt) (base : Chunk) :
    Nat → Str → List OutChunk × Str × List ToolCall
  | 0, buf => ([], buf, [])
  | fuel + 1, buf =>
    match findCompleteBlock buf with
    | none => ([], buf, [])
    | some r =>
      let filePath := filePathOf r.block
      if filePath = none ∨ filePath = some [] then
        drainBlocksF o f base fuel (buf.drop r.endIdx)
      else
        let call := callOf r.block
        let rest := drainBlocksF o f base fuel (buf.drop r.endIdx)
        (OutChunk.status base (statusText o f call) :: rest.1, rest.2.1, call :: rest.2.2)

def drainBlocks (o : Oracle) (f : Fmt) (base : Chunk) (buf : Str) :
    List OutChunk × Str × List ToolCall :=
  drainBlocksF o f base buf.length buf

/-- `processChunk` (lines 59–135) for one chunk, with the buffer passed
explicitly: normalize the chunk text, append it to the buffer (appending the
empty string is the identity, so the `if (chunkContent)` guard is absorbed),
yield the original chunk first, then run the block loop. -/
def processChunk (o : Oracle) (f : Fmt) (buf : Str) (c : Chunk) :
    List OutChunk × Str × List ToolCall :=
  let r := drainBlocks o f c (buf ++ chunkText c.content)
  (OutChunk.orig c :: r.1, r.2.1, r.2.2)

/-- Feeding a whole stream of chunks through one `ActionBlockStreamer`
instance, concatenating the yielded chunks and the performed calls. -/
def processStream (o : Oracle) (f : Fmt) : Str → List Chunk → List OutChunk × Str × List ToolCall
  | buf, [] => ([], buf, [])
  | buf, c :: cs =>
    let r1 := processChunk o f buf c
    let r2 := processStream o f r1.2.1 cs
    (r1.1 ++ r2.1, r2.2.1, r1.2.2 ++ r2.2.2)

/-- The texts of the synthetic status chunks of an output sequence. -/
def statusTexts : List OutChunk → List Str
  | [] => []
  | .orig _ :: rest => statusTexts rest
  | .status _ t :: rest => t :: statusTexts rest

/-- A plain string chunk. -/
def strChunk (s : Str) : Chunk := ⟨ChunkContent.str s⟩

/-- All text a chunk list contributes to the buffer. -/
def totalText (cs : List Chunk) : Str := (cs.map (fun c => chunkText c.content)).flatten

/-- Fence envelope pieces used to state fence tolerance: `` ```xml ``
followed by a newline. -/
def PREXML : Str := "```xml\n".data

/-- A fence opener without a language tag, followed by a newline. -/
def PREPLAIN : Str := "```\n".data

/-- A newline followed by a closing fence. -/
def POSTFENCE : Str := "\n```".data

/-- Two stacked trailing fences. -/
def POSTFENCE2 : Str := "\n```\n```".data

/-- A directive block whose body places the content field *before* the path
field, used to probe the field-extraction order. -/
def revBlock (p c : Str) : Str :=
  OPENTAG ++ (CONTENTOPEN ++ (c ++ (CONTENTCLOSE ++ (PATHOPEN ++ (p ++ (PATHCLOSE ++ CLOSETAG))))))

/-- A concrete successful tool environment, used to instantiate theorems at
concrete inputs: the call succeeds and the formatter echoes the result. -/
def oracle0 : Oracle := fun call => Except.ok call.path

/-- A concrete failing tool environment: the tool always throws `disk full`. -/
def oracleFail : Oracle := fun _ => Except.error "disk full".data

def fmt0 : Fmt := fun r => r

def chunk0 : Chunk := strChunk []

/-! ### Basic facts about `indexOf` -/

theorem pref_of_isPrefixOf : ∀ {p s : Str}, p.isPrefixOf s = true → p <+: s
  | [], s, _ => ⟨s, rfl⟩
  | a :: as, [], h => by simp [List.isPrefixOf] at h
  | a :: as, b :: bs, h => by
    simp only [List.isPrefixOf, Bool.and_eq_true, beq_iff_eq] at h
    obtain ⟨rfl, h2⟩ := h
    exact List.cons_prefix_cons.mpr ⟨rfl, pref_of_isPrefixOf h2⟩

theorem isPrefixOf_of_pref : ∀ {p s : Str}, p <+: s → p.isPrefixOf s = true
  | [], [], _ => rfl
  | [], _ :: _, _ => rfl
  | a :: as, [], h => absurd (List.prefix_nil.mp h) (by simp)
  | a :: as, b :: bs, h => by
    obtain ⟨rfl, h2⟩ := List.cons_prefix_cons.mp h
    simp only [List.isPrefixOf, Bool.and_eq_true, beq_iff_eq]
    exact ⟨trivial, isPrefixOf_of_pref h2⟩

theorem not_pref_of_isPrefixOf_false {p s : Str} (hf : p.isPrefixOf s = false) :
    ¬ p <+: s := fun hp => by
  rw [isPrefixOf_of_pref hp] at hf
  exact Bool.noConfusion hf

theorem indexOf_some_pref {pat : Str} : ∀ {s : Str} {i : Nat},
    indexOf pat s = some i → pat <+: s.drop i
  | [], i, h => by
    unfold indexOf at h
    cases hb : pat.isPrefixOf ([] : Str) with
    | true =>
      rw [hb] at h
      cases h
      exact pref_of_isPrefixOf hb
    | false => rw [hb] at h; cases h
  | c :: t, i, h => by
    unfold indexOf at h
    cases hb : pat.isPrefixOf (c :: t) with
    | true =>
      rw [hb] at h
      cases h
      exact pref_of_isPrefixOf hb
    | false =>
      rw [hb] at h
      obtain ⟨k, hk, rfl⟩ := Option.map_eq_some'.mp h
      simpa using indexOf_some_pref hk

theorem indexOf_some_min {pat : Str} : ∀ {s : Str} {i : Nat},
    indexOf pat s = some i → ∀ j, j < i → ¬ pat <+: s.drop j
  | [], i, h => by
    unfold indexOf at h
    cases hb : pat.isPrefixOf ([] : Str) with
    | true => rw [hb] at h; cases h; omega
    | false => rw [hb] at h; cases h
  | c :: t, i, h => by
    unfold indexOf at h
    cases hb : pat.isPrefixOf (c :: t) with
    | true => rw [hb] at h; cases h; omega
    | false =>
      rw [hb] at h
      obtain ⟨k, hk, rfl⟩ := Option.map_eq_some'.mp h
      intro j hj
      match j with
      | 0 => exact not_pref_of_isPrefixOf_false hb
      | j' + 1 =>
        simpa using indexOf_some_min hk j' (by omega)

theorem indexOf_none {pat : Str} : ∀ {s : Str},
    indexOf pat s = none → ∀ j, ¬ pat <+: s.drop j
  | [], h => by
    unfold indexOf at h
    cases hb : pat.isPrefixOf ([] : Str) with
    | true => rw [hb] at h; cases h
    | false =>
      intro j
      rw [List.drop_nil]
      exact not_pref_of_isPrefixOf_false hb
  | c :: t, h => by
    unfold indexOf at h
    cases hb : pat.isPrefixOf (c :: t) with
    | true => rw [hb] at h; cases h
    | false =>
      rw [hb, Option.map_eq_none'] at h
      intro j
      match j with
      | 0 => exact not_pref_of_isPrefixOf_false hb
      | j' + 1 => simpa using indexOf_none h j'

theorem indexOf_eq_some_of {pat s : Str} {i : Nat} (h1 : pat <+: s.drop i)
    (h2 : ∀ j, j < i → ¬ pat <+: s.drop j) : indexOf pat s = some i := by
  cases h : indexOf pat s with
  | none => exact absurd h1 (indexOf_none h i)
  | some k =>
    rcases Nat.lt_trichotomy k i with hlt | heq | hgt
    · exact absurd (indexOf_some_pref h) (h2 k hlt)
    · rw [heq]
    · exact absurd h1 (indexOf_some_min h i hgt)

theorem indexOf_eq_none_of {pat s : Str} (h : ∀ j, ¬ pat <+: s.drop j) :
    indexOf pat s = none := by
  cases hx : indexOf pat s with
  | none => rfl
  | some k => exact absurd (indexOf_some_pref hx) (h k)

/-- An occurrence of `pat` needs `pat.length` characters. -/
theorem pref_length_le {pat u : Str} (h : pat <+: u) : pat.length ≤ u.length :=
  h.length_le

/-- A pattern occurring in `x ++ y` within the first `x.length` characters
occurs in `x`. -/
theorem pref_append_of_le {pat x y : Str} (h : pat <+: x ++ y)
    (hl : pat.length ≤ x.length) : pat <+: x := by
  have h2 := List.prefix_iff_eq_take.mp h
  rw [List.take_append_of_le_length hl] at h2
  exact List.prefix_iff_eq_take.mpr h2

/-- Occurrences inside a prefix of `s` are occurrences in `s`. -/
theorem pref_drop_take {pat s : Str} {k j : Nat}
    (h : pat <+: (s.take k).drop j) : pat <+: s.drop j := by
  rw [List.drop_take] at h
  exact h.trans ⟨_, List.take_append_drop _ _⟩

/-! ### The fuelled recursions unfold like the source loops -/

/-- Unfolding equation for `tailFenceSearch` on a nonempty string. -/
theorem tailFenceSearch_cons (a : Char) (t : Str) :
    tailFenceSearch (a :: t) =
      match FENCE.isPrefixOf ((a :: t).drop (wsRun (a :: t))) with
      | true => some (0, wsRun (a :: t) + FENCE.length)
      | false => (tailFenceSearch t).map (fun p => (p.1 + 1, p.2 + 1)) := rfl

theorem tailFenceSearch_ge {u : Str} : ∀ {c fe : Nat},
    tailFenceSearch u = some (c, fe) → 3 ≤ fe := by
  induction u with
  | nil => intro c fe h; cases h
  | cons a t ih =>
    intro c fe h
    rw [tailFenceSearch_cons] at h
    cases hb : FENCE.isPrefixOf ((a :: t).drop (wsRun (a :: t))) with
    | true =>
      rw [hb] at h
      cases h
      simp [FENCE]
    | false =>
      rw [hb] at h
      obtain ⟨⟨c', fe'⟩, hk, hv⟩ := Option.map_eq_some'.mp h
      cases hv
      have := ih hk
      omega

theorem stripMatch_nil : stripMatch ([] : Str) = none := rfl

theorem stripMatch_matchEnd_ge {s : Str} {m : StripMatch}
    (h : stripMatch s = some m) : 3 ≤ m.matchEnd := by
  simp only [stripMatch] at h
  split at h
  · cases h
  · split at h
    · cases h
    · split at h
      · cases h
      · split at h
        · cases h
        · rename_i hts
          cases h
          exact Nat.le_trans (tailFenceSearch_ge hts) (Nat.le_add_left _ _)

theorem findCompleteBlock_nil : findCompleteBlock ([] : Str) = none := rfl

theorem findCompleteBlock_endIdx_ge {s : Str} {r : FindResult}
    (h : findCompleteBlock s = some r) : 13 ≤ r.endIdx := by
  have h14 : CLOSETAG.length = 14 := rfl
  have h3 : FENCE.length = 3 := rfl
  simp only [findCompleteBlock] at h
  split at h
  · cases h
  · split at h <;> (cases h; split <;> (simp only [h14, h3]; omega))

theorem stripF_fuel : ∀ (n m : Nat) (s : Str), s.length ≤ n → s.length ≤ m →
    stripF n s = stripF m s := by
  intro n
  induction n with
  | zero =>
    intro m s hn _
    have : s = [] := List.eq_nil_of_length_eq_zero (by omega)
    subst this
    cases m with
    | zero => rfl
    | succ m' => simp [stripF, stripMatch_nil]
  | succ n ih =>
    intro m s hn hm
    cases m with
    | zero =>
      have : s = [] := List.eq_nil_of_length_eq_zero (by omega)
      subst this
      simp [stripF, stripMatch_nil]
    | succ m' =>
      cases hsm : stripMatch s with
      | none => simp only [stripF, hsm]
      | some mm =>
        simp only [stripF, hsm]
        have hne : s ≠ [] := by rintro rfl; rw [stripMatch_nil] at hsm; cases hsm
        have hpos : 1 ≤ s.length := List.length_pos.mpr hne
        have hge := stripMatch_matchEnd_ge hsm
        have hlen : (s.drop mm.matchEnd).length ≤ s.length - 1 := by
          rw [List.length_drop]; omega
        rw [ih m' (s.drop mm.matchEnd) (by omega) (by omega)]

/-- `stripCodeFences` really is the global replace: unfolding equation. -/
theorem stripCodeFences_eq (s : Str) :
    stripCodeFences s =
      match stripMatch s with
      | none => s
      | some m =>
        s.take m.start ++ (s.drop m.groupStart).take (m.groupEnd - m.groupStart) ++
          stripCodeFences (s.drop m.matchEnd) := by
  unfold stripCodeFences
  cases hl : s.length with
  | zero =>
    have : s = [] := List.eq_nil_of_length_eq_zero hl
    subst this
    simp [stripF, stripMatch_nil]
  | succ k =>
    cases hsm : stripMatch s with
    | none => simp only [stripF, hsm]
    | some mm =>
      simp only [stripF, hsm]
      have hge := stripMatch_matchEnd_ge hsm
      have hlen : (s.drop mm.matchEnd).length ≤ k := by
        rw [List.length_drop]; omega
      rw [stripF_fuel k (s.drop mm.matchEnd).length (s.drop mm.matchEnd) hlen le_rfl]

theorem drainBlocksF_fuel (o : Oracle) (f : Fmt) (base : Chunk) :
    ∀ (n m : Nat) (buf : Str), buf.length ≤ n → buf.length ≤ m →
      drainBlocksF o f base n buf = drainBlocksF o f base m buf := by
  intro n
  induction n with
  | zero =>
    intro m buf hn _
    have : buf = [] := List.eq_nil_of_length_eq_zero (by omega)
    subst this
    cases m with
    | zero => rfl
    | succ m' => simp [drainBlocksF, findCompleteBlock_nil]
  | succ n ih =>
    intro m buf hn hm
    cases m with
    | zero =>
      have : buf = [] := List.eq_nil_of_length_eq_zero (by omega)
      subst this
      simp [drainBlocksF, findCompleteBlock_nil]
    | succ m' =>
      cases hfb : findCompleteBlock buf with
      | none => simp only [drainBlocksF, hfb]
      | some r =>
        simp only [drainBlocksF, hfb]
        have hne : buf ≠ [] := by rintro rfl; rw [findCompleteBlock_nil] at hfb; cases hfb
        have hpos : 1 ≤ buf.length := List.length_pos.mpr hne
        have hge := findCompleteBlock_endIdx_ge hfb
        have hlen : (buf.drop r.endIdx).length ≤ buf.length - 1 := by
          rw [List.length_drop]; omega
        rw [ih m' (buf.drop r.endIdx) (by omega) (by omega)]

/-- The block loop really is the source's `while` loop: unfolding equation. -/
theorem drainBlocks_eq (o : Oracle) (f : Fmt) (base : Chunk) (buf : Str) :
    drainBlocks o f base buf =
      match findCompleteBlock buf with
      | none => ([], buf, [])
      | some r =>
        if filePathOf r.block = none ∨ filePathOf r.block = some [] then
          drainBlocks o f base (buf.drop r.endIdx)
        else
          (OutChunk.status base (statusText o f (callOf r.block)) ::
              (drainBlocks o f base (buf.drop r.endIdx)).1,
            (drainBlocks o f base (buf.drop r.endIdx)).2.1,
            callOf r.block :: (drainBlocks o f base (buf.drop r.endIdx)).2.2) := by
  unfold drainBlocks
  cases hl : buf.length with
  | zero =>
    have : buf = [] := List.eq_nil_of_length_eq_zero hl
    subst this
    simp [drainBlocksF, findCompleteBlock_nil]
  | succ k =>
    cases hfb : findCompleteBlock buf with
    | none => simp only [drainBlocksF, hfb]
    | some r =>
      simp only [drainBlocksF, hfb]
      have hge := findCompleteBlock_endIdx_ge hfb
      have hlen : (buf.drop r.endIdx).length ≤ k := by
        rw [List.length_drop]; omega
      rw [drainBlocksF_fuel o f base k (buf.drop r.endIdx).length (buf.drop r.endIdx) hlen
        le_rfl]

/-! ### Helper lemmas about the block loop -/

theorem indexOf_drop_none {pat s : Str} (h : indexOf pat s = none) (k : Nat) :
    indexOf pat (s.drop k) = none :=
  indexOf_eq_none_of fun j => by rw [List.drop_drop]; exact indexOf_none h (k + j)

theorem stripMatch_none_of_no_close {s : Str} (h : indexOf CLOSETAG s = none) :
    stripMatch s = none := by
  simp only [stripMatch]
  split
  · rfl
  · split
    · rfl
    · rw [indexOf_drop_none h]

theorem strip_of_no_close {s : Str} (h : indexOf CLOSETAG s = none) :
    stripCodeFences s = s := by
  rw [stripCodeFences_eq, stripMatch_none_of_no_close h]

theorem blockMatch_none_of_no_close {s : Str} (h : indexOf CLOSETAG s = none) :
    blockMatch s = none := by
  simp only [blockMatch]
  split
  · rfl
  · rw [indexOf_drop_none h]

theorem find_none_of_no_close {s : Str} (h : indexOf CLOSETAG s = none) :
    findCompleteBlock s = none := by
  simp only [findCompleteBlock, strip_of_no_close h]
  rw [blockMatch_none_of_no_close h]

theorem drain_nil (o : Oracle) (f : Fmt) (base : Chunk) :
    drainBlocks o f base [] = ([], [], []) := rfl

theorem drain_of_find_none {o : Oracle} {f : Fmt} {base : Chunk} {buf : Str}
    (h : findCompleteBlock buf = none) : drainBlocks o f base buf = ([], buf, []) := by
  rw [drainBlocks_eq, h]

/-- Every chunk the block loop yields is a synthetic status chunk cloned from
the chunk being processed. -/
theorem drainF_outputs_status (o : Oracle) (f : Fmt) (base : Chunk) :
    ∀ (fuel : Nat) (buf : Str), ∀ x ∈ (drainBlocksF o f base fuel buf).1,
      ∃ t, x = OutChunk.status base t := by
  intro fuel
  induction fuel with
  | zero => intro buf x hx; simp [drainBlocksF] at hx
  | succ n ih =>
    intro buf x hx
    simp only [drainBlocksF] at hx
    split at hx
    · simp at hx
    · split at hx
      · exact ih _ x hx
      · rcases List.mem_cons.mp hx with hx | hx
        · exact ⟨_, hx⟩
        · exact ih _ x hx

/-- Every tool call the block loop performs has `confirmation := false`. -/
theorem drainF_conf_false (o : Oracle) (f : Fmt) (base : Chunk) :
    ∀ (fuel : Nat) (buf : Str), ∀ call ∈ (drainBlocksF o f base fuel buf).2.2,
      call.confirmation = false := by
  intro fuel
  induction fuel with
  | zero => intro buf call hc; simp [drainBlocksF] at hc
  | succ n ih =>
    intro buf call hc
    simp only [drainBlocksF] at hc
    split at hc
    · simp at hc
    · split at hc
      · exact ih _ call hc
      · rcases List.mem_cons.mp hc with hc | hc
        · rw [hc]; rfl
        · exact ih _ call hc

theorem statusTexts_append (l1 l2 : List OutChunk) :
    statusTexts (l1 ++ l2) = statusTexts l1 ++ statusTexts l2 := by
  induction l1 with
  | nil => rfl
  | cons a t ih => cases a <;> simp [statusTexts, ih]

/-- A list of pass-through chunks contributes no status texts. -/
theorem statusTexts_all_orig : ∀ {l : List OutChunk},
    (∀ x ∈ l, ∃ c, x = OutChunk.orig c) → statusTexts l = [] := by
  intro l
  induction l with
  | nil => intro _; rfl
  | cons a t ih =>
    intro h
    obtain ⟨c, rfl⟩ := h a (by simp)
    simpa [statusTexts] using ih fun x hx => h x (by simp [hx])

/-- Occurrences inside a prefix are occurrences in the longer string. -/
theorem pref_mono {pat x y : Str} {j : Nat} (hxy : x <+: y) (h : pat <+: x.drop j) :
    pat <+: y.drop j := by
  obtain ⟨r, rfl⟩ := hxy
  by_cases hj : j ≤ x.length
  · rw [List.drop_append_of_le_length hj]
    exact h.trans (List.prefix_append _ _)
  · rw [List.drop_eq_nil_of_le (by omega)] at h
    have hp : pat = [] := List.prefix_nil.mp h
    subst hp
    exact ⟨_, rfl⟩

theorem indexOf_none_of_pref {pat x y : Str} (hxy : x <+: y)
    (h : indexOf pat y = none) : indexOf pat x = none :=
  indexOf_eq_none_of fun j hp => indexOf_none h j (pref_mono hxy hp)

theorem totalText_cons (c : Chunk) (cs : List Chunk) :
    totalText (c :: cs) = chunkText c.content ++ totalText cs := by
  simp [totalText]

/-- A `processChunk` call that completes no block: the chunk passes through,
the text is buffered, nothing is dispatched. -/
theorem processChunk_no_block {o : Oracle} {f : Fmt} {buf : Str} {c : Chunk}
    (h : findCompleteBlock (buf ++ chunkText c.content) = none) :
    processChunk o f buf c = ([OutChunk.orig c], buf ++ chunkText c.content, []) := by
  simp only [processChunk, drain_of_find_none h]

/-- C1: for every input chunk fed to `processChunk`, the original chunk object
is yielded unchanged as the first element of that call's output sequence, and
everything after it is a synthetic status chunk (a clone of that same chunk),
so the original always precedes any synthetic chunk derived from text it
contributed. -/
theorem claim1_pass_through (o : Oracle) (f : Fmt) (buf : Str) (c : Chunk) :
    ∃ rest, (processChunk o f buf c).1 = OutChunk.orig c :: rest ∧
      ∀ x ∈ rest, ∃ t, x = OutChunk.status c t :=
  ⟨(drainBlocks o f c (buf ++ chunkText c.content)).1, rfl,
    fun x hx => drainF_outputs_status o f c _ _ x hx⟩

/-! ### A complete well-formed block standing alone in the buffer -/

/-- If `pat` first occurs at `i ≥ k`, then in `s.drop k` it first occurs at
`i - k`. -/
theorem indexOf_drop_of_le {pat s : Str} {i k : Nat}
    (h : indexOf pat s = some i) (hk : k ≤ i) :
    indexOf pat (s.drop k) = some (i - k) := by
  apply indexOf_eq_some_of
  · rw [List.drop_drop, Nat.add_sub_cancel' hk]
    exact indexOf_some_pref h
  · intro j hj
    rw [List.drop_drop]
    exact indexOf_some_min h (k + j) (by omega)

/-- A string whose only open tag is at position 0 is left unchanged by
`stripCodeFences`: the fence regex needs an open tag strictly after the
(at least three) fence and language characters. -/
theorem strip_of_single_open {B : Str} (h1 : indexOf OPENTAG (B.drop 1) = none) :
    stripCodeFences B = B := by
  have hno : ∀ g, 1 ≤ g → indexOf OPENTAG (B.drop g) = none := by
    intro g hg
    apply indexOf_eq_none_of
    intro j
    rw [List.drop_drop, show g + j = 1 + (g - 1 + j) from by omega, ← List.drop_drop]
    exact indexOf_none h1 _
  have hsm : stripMatch B = none := by
    have hf3 : FENCE.length = 3 := rfl
    simp only [stripMatch]
    split
    · rfl
    · rw [hno _ (by simp only [hf3]; omega)]
  rw [stripCodeFences_eq, hsm]

/-- On a buffer that is exactly one well-formed block, the block regex matches
the whole buffer. -/
theorem blockMatch_full {B : Str} (h0 : indexOf OPENTAG B = some 0)
    (h2 : indexOf CLOSETAG B = some (B.length - 14)) (h27 : 27 ≤ B.length) :
    blockMatch B = some B := by
  have hol : OPENTAG.length = 13 := rfl
  have hcl : CLOSETAG.length = 14 := rfl
  have hidx : indexOf CLOSETAG (B.drop (0 + OPENTAG.length)) = some (B.length - 27) := by
    rw [show 0 + OPENTAG.length = 13 from rfl, indexOf_drop_of_le h2 (by omega)]
    congr 1
  simp only [blockMatch, h0, hidx, List.drop_zero]
  rw [show OPENTAG.length + (B.length - 27) + CLOSETAG.length = B.length from by
    rw [hol, hcl]; omega, List.take_length]

/-- On a buffer that is exactly one well-formed block, `findCompleteBlock`
returns the whole buffer and consumes exactly its length. -/
theorem find_full {B : Str} (h0 : indexOf OPENTAG B = some 0)
    (h1 : indexOf OPENTAG (B.drop 1) = none)
    (h2 : indexOf CLOSETAG B = some (B.length - 14)) (h27 : 27 ≤ B.length) :
    findCompleteBlock B = some ⟨B, B.length⟩ := by
  have hcl : CLOSETAG.length = 14 := rfl
  simp only [findCompleteBlock, strip_of_single_open h1, blockMatch_full h0 h2 h27, h2]
  rw [show B.length - 14 + CLOSETAG.length = B.length from by rw [hcl]; omega,
    List.drop_length]
  rfl

/-- A close tag whose only occurrence reaches the very end of `B` cannot occur
in a proper prefix of `B`. -/
theorem close_prefix_none {B : Str} (h2 : indexOf CLOSETAG B = some (B.length - 14))
    {k : Nat} (hk : k < B.length) : indexOf CLOSETAG (B.take k) = none := by
  apply indexOf_eq_none_of
  intro j hp
  have hB := pref_drop_take hp
  have hlen := pref_length_le hp
  rw [List.length_drop, List.length_take] at hlen
  have h14 : CLOSETAG.length = 14 := rfl
  rw [h14] at hlen
  by_cases hj : j < B.length - 14
  · exact indexOf_some_min h2 j hj hB
  · omega

/-- Stream of empty-text chunks on an empty buffer: everything passes through,
nothing is detected. -/
theorem stream_of_empties (o : Oracle) (f : Fmt) :
    ∀ fs : List Str, fs.flatten = [] →
      processStream o f [] (fs.map strChunk) =
        ((fs.map strChunk).map OutChunk.orig, [], []) := by
  intro fs
  induction fs with
  | nil => intro _; simp [processStream]
  | cons a t ih =>
    intro h
    rw [List.flatten_cons] at h
    obtain ⟨ha, ht⟩ := List.append_eq_nil.mp h
    subst ha
    have hstep : processChunk o f [] (strChunk []) =
        ([OutChunk.orig (strChunk [])], [], []) :=
      processChunk_no_block findCompleteBlock_nil
    simp only [List.map_cons, processStream, hstep, ih ht]
    rfl

/-- The single completed dispatch of a well-formed block standing alone in the
buffer. -/
theorem drain_full (o : Oracle) (f : Fmt) (base : Chunk) {B : Str}
    (h0 : indexOf OPENTAG B = some 0) (h1 : indexOf OPENTAG (B.drop 1) = none)
    (h2 : indexOf CLOSETAG B = some (B.length - 14)) (h27 : 27 ≤ B.length)
    (hpath : (filePathOf B).getD [] ≠ []) :
    drainBlocks o f base B =
      ([OutChunk.status base (statusText o f (callOf B))], [], [callOf B]) := by
  have hcond : ¬ (filePathOf B = none ∨ filePathOf B = some []) := by
    rintro (hc | hc) <;> rw [hc] at hpath <;> simp at hpath
  rw [drainBlocks_eq, find_full h0 h1 h2 h27]
  simp only [if_neg hcond, List.drop_length, drain_nil]

/-- Feeding the remaining fragments of a block onto a proper-prefix buffer
dispatches the block exactly once, with the fields and status text computed
from the full block, and empties the buffer. -/
theorem stream_of_partial (o : Oracle) (f : Fmt) {B : Str}
    (h0 : indexOf OPENTAG B = some 0) (h1 : indexOf OPENTAG (B.drop 1) = none)
    (h2 : indexOf CLOSETAG B = some (B.length - 14)) (h27 : 27 ≤ B.length)
    (hpath : (filePathOf B).getD [] ≠ []) :
    ∀ (fs : List Str) (k : Nat), k < B.length → B.take k ++ fs.flatten = B →
      statusTexts (processStream o f (B.take k) (fs.map strChunk)).1 =
          [statusText o f (callOf B)] ∧
        (processStream o f (B.take k) (fs.map strChunk)).2.1 = [] ∧
        (processStream o f (B.take k) (fs.map strChunk)).2.2 = [callOf B] := by
  intro fs
  induction fs with
  | nil =>
    intro k hk hjoin
    exfalso
    rw [List.flatten_nil, List.append_nil] at hjoin
    have := congrArg List.length hjoin
    rw [List.length_take] at this
    omega
  | cons f' fs' ih =>
    intro k hk hjoin
    rw [List.flatten_cons] at hjoin
    have hPlen : (B.take k).length = k := by rw [List.length_take]; omega
    have hlensum := congrArg List.length hjoin
    simp only [List.length_append, hPlen] at hlensum
    have hbuf : B.take (k + f'.length) = B.take k ++ f' := by
      calc B.take (k + f'.length)
          = (B.take k ++ (f' ++ fs'.flatten)).take ((B.take k).length + f'.length) := by
            rw [hjoin, hPlen]
        _ = B.take k ++ (f' ++ fs'.flatten).take f'.length := by rw [List.take_append]
        _ = B.take k ++ f' := by rw [List.take_left]
    have hctext : chunkText (strChunk f').content = f' := rfl
    rcases Nat.lt_or_ge (k + f'.length) B.length with hlt | hge
    · -- still a proper prefix: nothing detected yet
      have hfind : findCompleteBlock (B.take k ++ f') = none := by
        rw [← hbuf]
        exact find_none_of_no_close (close_prefix_none h2 hlt)
      have hstep : processChunk o f (B.take k) (strChunk f') =
          ([OutChunk.orig (strChunk f')], B.take k ++ f', []) := by
        have hh := @processChunk_no_block o f (B.take k) (strChunk f')
          (by rw [hctext]; exact hfind)
        rw [hctext] at hh
        exact hh
      have hjoin' : B.take (k + f'.length) ++ fs'.flatten = B := by
        rw [hbuf, List.append_assoc, hjoin]
      obtain ⟨ih1, ih2, ih3⟩ := ih (k + f'.length) hlt hjoin'
      simp only [List.map_cons, processStream, hstep, ← hbuf]
      refine ⟨?_, ?_, ?_⟩
      · rw [statusTexts_append, ih1]; rfl
      · exact ih2
      · rw [ih3]; rfl
    · -- the block is completed by this fragment
      have hkf : k + f'.length = B.length := by omega
      have hflat : fs'.flatten = [] := by
        have : fs'.flatten.length = 0 := by omega
        exact List.eq_nil_of_length_eq_zero this
      have hfull : B.take k ++ f' = B := by
        rw [← hbuf, hkf, List.take_length]
      have hstep : processChunk o f (B.take k) (strChunk f') =
          (OutChunk.orig (strChunk f') ::
              [OutChunk.status (strChunk f') (statusText o f (callOf B))],
            [], [callOf B]) := by
        simp only [processChunk, hctext, hfull,
          drain_full o f (strChunk f') h0 h1 h2 h27 hpath]
      simp only [List.map_cons, processStream, hstep, stream_of_empties o f fs' hflat]
      refine ⟨?_, by simp, by simp⟩
      rw [statusTexts_append,
        statusTexts_all_orig (l := List.map OutChunk.orig (List.map strChunk fs')) (by
          intro x hx
          obtain ⟨a, _, rfl⟩ := List.mem_map.mp hx
          exact ⟨_, rfl⟩)]
      simp [statusTexts]

/-- C2: delivering a well-formed directive block split into arbitrary
fragments produces exactly the same dispatch outcome — the same single tool
call, the same status chunk text, the same final buffer — as delivering the
whole block in one chunk. -/
theorem claim2_split_invariance (o : Oracle) (f : Fmt) (B : Str) (frags : List Str)
    (h0 : indexOf OPENTAG B = some 0)
    (h1 : indexOf OPENTAG (B.drop 1) = none)
    (h2 : indexOf CLOSETAG B = some (B.length - 14))
    (h27 : 27 ≤ B.length)
    (hpath : (filePathOf B).getD [] ≠ [])
    (hjoin : frags.flatten = B) :
    statusTexts (processStream o f [] (frags.map strChunk)).1 =
        statusTexts (processStream o f [] [strChunk B]).1 ∧
      (processStream o f [] (frags.map strChunk)).2.2 =
        (processStream o f [] [strChunk B]).2.2 ∧
      (processStream o f [] (frags.map strChunk)).2.1 =
        (processStream o f [] [strChunk B]).2.1 := by
  have hsingle : processStream o f [] [strChunk B] =
      ([OutChunk.orig (strChunk B),
        OutChunk.status (strChunk B) (statusText o f (callOf B))], [], [callOf B]) := by
    have hstep : processChunk o f [] (strChunk B) =
        (OutChunk.orig (strChunk B) ::
            [OutChunk.status (strChunk B) (statusText o f (callOf B))],
          [], [callOf B]) := by
      simp only [processChunk,
        show ([] : Str) ++ chunkText (strChunk B).content = B from rfl,
        drain_full o f (strChunk B) h0 h1 h2 h27 hpath]
    simp [processStream, hstep]
  obtain ⟨hp1, hp2, hp3⟩ := stream_of_partial o f h0 h1 h2 h27 hpath frags 0
    (by omega) (by rw [List.take_zero, List.nil_append]; exact hjoin)
  rw [List.take_zero] at hp1 hp2 hp3
  rw [hsingle, hp1, hp2, hp3]
  exact ⟨rfl, rfl, rfl⟩

/-- C9: if an opening tag appears in the accumulated stream but no matching
closing tag ever arrives, no dispatch is ever performed: every chunk passes
through unchanged, and all the text (the unterminated block included) is still
in the buffer when the stream ends. -/
theorem claim9_unterminated (o : Oracle) (f : Fmt) (buf0 : Str) (chunks : List Chunk)
    (i : Nat) (hopen : indexOf OPENTAG (buf0 ++ totalText chunks) = some i)
    (hclose : indexOf CLOSETAG (buf0 ++ totalText chunks) = none) :
    processStream o f buf0 chunks =
      (chunks.map OutChunk.orig, buf0 ++ totalText chunks, []) := by
  clear hopen
  revert hclose
  induction chunks generalizing buf0 with
  | nil => intro hclose; simp [processStream, totalText]
  | cons c cs ih =>
    intro hclose
    have hassoc : buf0 ++ totalText (c :: cs) =
        (buf0 ++ chunkText c.content) ++ totalText cs := by
      rw [totalText_cons, List.append_assoc]
    have hpref : (buf0 ++ chunkText c.content) <+: (buf0 ++ totalText (c :: cs)) := by
      rw [hassoc]; exact List.prefix_append _ _
    have hc1 : indexOf CLOSETAG (buf0 ++ chunkText c.content) = none :=
      indexOf_none_of_pref hpref hclose
    have hfind := find_none_of_no_close hc1
    have hrec := ih (buf0 ++ chunkText c.content) (by rw [← hassoc]; exact hclose)
    simp only [processStream, processChunk_no_block hfind, hrec]
    rw [hassoc]
    simp

/-! ### Fence-wrapped blocks (claim C3) -/

theorem drop_append_len (x y : Str) (n : Nat) : (x ++ y).drop (x.length + n) = y.drop n := by
  simp [List.drop_append]

/-- The close tag first occurs in `t ++ post` exactly where the block
`OPENTAG ++ t` ends. -/
theorem close_in_tail {t post : Str}
    (h2 : indexOf CLOSETAG (OPENTAG ++ t) = some ((OPENTAG ++ t).length - 14))
    (h27 : 27 ≤ (OPENTAG ++ t).length) :
    indexOf CLOSETAG (t ++ post) = some (t.length - 14) := by
  have hol : OPENTAG.length = 13 := rfl
  have hcl : CLOSETAG.length = 14 := rfl
  have hlen : (OPENTAG ++ t).length = 13 + t.length := by rw [List.length_append, hol]
  have h14 : 14 ≤ t.length := by omega
  have hdropB : (OPENTAG ++ t).drop ((OPENTAG ++ t).length - 14) = t.drop (t.length - 14) := by
    rw [hlen, show 13 + t.length - 14 = OPENTAG.length + (t.length - 14) from by
      rw [hol]; omega, drop_append_len]
  have hend : t.drop (t.length - 14) = CLOSETAG := by
    rw [← hdropB]
    exact ((indexOf_some_pref h2).eq_of_length
      (by rw [List.length_drop, hcl]; omega)).symm
  apply indexOf_eq_some_of
  · rw [List.drop_append_of_le_length (by omega), hend]
    exact List.prefix_append _ _
  · intro j hj hcon
    rw [List.drop_append_of_le_length (by omega)] at hcon
    have hTl : CLOSETAG <+: t.drop j :=
      pref_append_of_le hcon (by rw [List.length_drop, hcl]; omega)
    have hBj : CLOSETAG <+: (OPENTAG ++ t).drop (OPENTAG.length + j) := by
      rw [drop_append_len]; exact hTl
    exact indexOf_some_min h2 (OPENTAG.length + j) (by rw [hlen, hol]; omega) hBj

/-- No close-tag occurrence can start inside the literal open tag. -/
theorem no_close_in_opentag {R : Str} : ∀ m, m < 13 → ¬ CLOSETAG <+: ((OPENTAG ++ R).drop m) := by
  intro m hm
  interval_cases m <;> exact not_pref_of_isPrefixOf_false rfl

/-- No close-tag occurrence can start inside a leading ```` ```xml ```` fence. -/
theorem no_close_in_prexml {R : Str} : ∀ j, j < 7 → ¬ CLOSETAG <+: ((PREXML ++ R).drop j) := by
  intro j hj
  interval_cases j <;> exact not_pref_of_isPrefixOf_false rfl

/-- No close-tag occurrence can start inside a leading plain ```` ``` ```` fence. -/
theorem no_close_in_preplain {R : Str} : ∀ j, j < 4 → ¬ CLOSETAG <+: ((PREPLAIN ++ R).drop j) := by
  intro j hj
  interval_cases j <;> exact not_pref_of_isPrefixOf_false rfl

/-- First close tag of the fence-wrapped buffer: at the block's closing tag. -/
theorem close_wrapped {pre t post : Str} (h14 : 14 ≤ t.length)
    (hct : indexOf CLOSETAG (t ++ post) = some (t.length - 14))
    (hnopre : ∀ j, j < pre.length → ¬ CLOSETAG <+: ((pre ++ ((OPENTAG ++ t) ++ post)).drop j))
    (hno13 : ∀ m, m < 13 → ¬ CLOSETAG <+: (((OPENTAG ++ t) ++ post).drop m)) :
    indexOf CLOSETAG (pre ++ ((OPENTAG ++ t) ++ post)) =
      some (pre.length + (13 + (t.length - 14))) := by
  have hol : OPENTAG.length = 13 := rfl
  apply indexOf_eq_some_of
  · rw [drop_append_len, List.append_assoc,
      show 13 + (t.length - 14) = OPENTAG.length + (t.length - 14) from by rw [hol],
      drop_append_len]
    exact (indexOf_some_pref hct)
  · intro j hj
    rcases Nat.lt_or_ge j pre.length with hjp | hjp
    · exact hnopre j hjp
    · obtain ⟨m, rfl⟩ : ∃ m, j = pre.length + m := ⟨j - pre.length, by omega⟩
      rw [drop_append_len]
      rcases Nat.lt_or_ge m 13 with hm | hm
      · exact hno13 m hm
      · obtain ⟨m', rfl⟩ : ∃ m', m = 13 + m' := ⟨m - 13, by omega⟩
        rw [List.append_assoc, show 13 + m' = OPENTAG.length + m' from by rw [hol],
          drop_append_len]
        exact indexOf_some_min hct m' (by omega)

/-- The block regex on a block followed by trailing text whose first close tag
is the block's own: matches exactly the block. -/
theorem blockMatch_block_append {t post : Str} (h14 : 14 ≤ t.length)
    (hct : indexOf CLOSETAG (t ++ post) = some (t.length - 14)) :
    blockMatch ((OPENTAG ++ t) ++ post) = some (OPENTAG ++ t) := by
  have hol : OPENTAG.length = 13 := rfl
  have hcl : CLOSETAG.length = 14 := rfl
  have hop : indexOf OPENTAG ((OPENTAG ++ t) ++ post) = some 0 :=
    indexOf_eq_some_of
      (by rw [List.drop_zero]
          exact (List.prefix_append _ _).trans (List.prefix_append _ _))
      (fun j hj => absurd hj (by omega))
  have hscrut : indexOf CLOSETAG (((OPENTAG ++ t) ++ post).drop (0 + OPENTAG.length)) =
      some (t.length - 14) := by
    rw [List.append_assoc, show 0 + OPENTAG.length = OPENTAG.length + 0 from by omega,
      drop_append_len, List.drop_zero]
    exact hct
  simp only [blockMatch, hop, hscrut]
  rw [List.drop_zero, show OPENTAG.length + (t.length - 14) + CLOSETAG.length =
    (OPENTAG ++ t).length from by rw [hol, hcl, List.length_append, hol]; omega,
    List.take_left]

/-- The fence-strip regex on a ```` ```xml ````-wrapped block: one match,
covering the whole envelope, whose capture group is exactly the block. -/
theorem stripMatch_xml_wrapped {t post : Str} (h14 : 14 ≤ t.length)
    (hct : indexOf CLOSETAG (t ++ post) = some (t.length - 14))
    (hpost : tailFenceSearch post = some (0, 4)) :
    stripMatch (PREXML ++ ((OPENTAG ++ t) ++ post)) =
      some ⟨0, 7, 20 + t.length, 24 + t.length⟩ := by
  have hW0 : indexOf FENCE (PREXML ++ ((OPENTAG ++ t) ++ post)) = some 0 := rfl
  have hx : XMLTAG.isPrefixOf ((PREXML ++ ((OPENTAG ++ t) ++ post)).drop
      (0 + FENCE.length)) = true := rfl
  have hws : wsRun ((PREXML ++ ((OPENTAG ++ t) ++ post)).drop
      (0 + FENCE.length + XMLTAG.length)) = 1 := rfl
  have hop : indexOf OPENTAG ((PREXML ++ ((OPENTAG ++ t) ++ post)).drop
      (0 + FENCE.length + XMLTAG.length + 1)) = some 0 := by
    rw [show (PREXML ++ ((OPENTAG ++ t) ++ post)).drop
        (0 + FENCE.length + XMLTAG.length + 1) = (OPENTAG ++ t) ++ post from rfl]
    exact indexOf_eq_some_of
      (by rw [List.drop_zero]
          exact (List.prefix_append _ _).trans (List.prefix_append _ _))
      (fun j hj => absurd hj (by omega))
  have hcw : indexOf CLOSETAG ((PREXML ++ ((OPENTAG ++ t) ++ post)).drop
      (0 + FENCE.length + XMLTAG.length + 1 + 0 + OPENTAG.length)) = some (t.length - 14) :=
    hct
  have hoffe : 0 + FENCE.length + XMLTAG.length + 1 + 0 + OPENTAG.length +
      (t.length - 14) + CLOSETAG.length = 20 + t.length := by
    simp only [show FENCE.length = 3 from rfl, show XMLTAG.length = 3 from rfl,
      show OPENTAG.length = 13 from rfl, show CLOSETAG.length = 14 from rfl]
    omega
  have hdropPost : (PREXML ++ ((OPENTAG ++ t) ++ post)).drop (20 + t.length) = post := by
    rw [show PREXML ++ ((OPENTAG ++ t) ++ post) = (PREXML ++ (OPENTAG ++ t)) ++ post from
      (List.append_assoc PREXML (OPENTAG ++ t) post).symm]
    rw [show 20 + t.length = (PREXML ++ (OPENTAG ++ t)).length from by
      simp only [List.length_append, show PREXML.length = 7 from rfl,
        show OPENTAG.length = 13 from rfl]
      omega]
    exact List.drop_left _ _
  simp only [stripMatch, hW0, hx, hws, hop, hcw, hoffe, hdropPost, hpost]
  refine congrArg some ?_
  simp only [StripMatch.mk.injEq]
  exact ⟨trivial, rfl, by omega, by omega⟩

/-- The fence-strip regex on a plain ```` ``` ````-wrapped block. -/
theorem stripMatch_plain_wrapped {t post : Str} (h14 : 14 ≤ t.length)
    (hct : indexOf CLOSETAG (t ++ post) = some (t.length - 14))
    (hpost : tailFenceSearch post = some (0, 4)) :
    stripMatch (PREPLAIN ++ ((OPENTAG ++ t) ++ post)) =
      some ⟨0, 4, 17 + t.length, 21 + t.length⟩ := by
  have hW0 : indexOf FENCE (PREPLAIN ++ ((OPENTAG ++ t) ++ post)) = some 0 := rfl
  have hx : XMLTAG.isPrefixOf ((PREPLAIN ++ ((OPENTAG ++ t) ++ post)).drop
      (0 + FENCE.length)) = false := rfl
  have hws : wsRun ((PREPLAIN ++ ((OPENTAG ++ t) ++ post)).drop
      (0 + FENCE.length + 0)) = 1 := rfl
  have hop : indexOf OPENTAG ((PREPLAIN ++ ((OPENTAG ++ t) ++ post)).drop
      (0 + FENCE.length + 0 + 1)) = some 0 := by
    rw [show (PREPLAIN ++ ((OPENTAG ++ t) ++ post)).drop
        (0 + FENCE.length + 0 + 1) = (OPENTAG ++ t) ++ post from rfl]
    exact indexOf_eq_some_of
      (by rw [List.drop_zero]
          exact (List.prefix_append _ _).trans (List.prefix_append _ _))
      (fun j hj => absurd hj (by omega))
  have hcw : indexOf CLOSETAG ((PREPLAIN ++ ((OPENTAG ++ t) ++ post)).drop
      (0 + FENCE.length + 0 + 1 + 0 + OPENTAG.length)) = some (t.length - 14) :=
    hct
  have hoffe : 0 + FENCE.length + 0 + 1 + 0 + OPENTAG.length +
      (t.length - 14) + CLOSETAG.length = 17 + t.length := by
    simp only [show FENCE.length = 3 from rfl, show OPENTAG.length = 13 from rfl,
      show CLOSETAG.length = 14 from rfl]
    omega
  have hdropPost : (PREPLAIN ++ ((OPENTAG ++ t) ++ post)).drop (17 + t.length) = post := by
    rw [show PREPLAIN ++ ((OPENTAG ++ t) ++ post) = (PREPLAIN ++ (OPENTAG ++ t)) ++ post from
      (List.append_assoc PREPLAIN (OPENTAG ++ t) post).symm]
    rw [show 17 + t.length = (PREPLAIN ++ (OPENTAG ++ t)).length from by
      simp only [List.length_append, show PREPLAIN.length = 4 from rfl,
        show OPENTAG.length = 13 from rfl]
      omega]
    exact List.drop_left _ _
  simp only [stripMatch, hW0, hx, hws, hop, hcw, hoffe, hdropPost, hpost]
  refine congrArg some ?_
  simp only [StripMatch.mk.injEq]
  exact ⟨trivial, rfl, by omega, by omega⟩

/-- Dropping the whole leading envelope (fence opener plus block) leaves the
trailing text. -/
theorem drop_envelope {pre t post : Str} {n : Nat}
    (hn : n = (pre ++ (OPENTAG ++ t)).length) :
    (pre ++ ((OPENTAG ++ t) ++ post)).drop n = post := by
  rw [show pre ++ ((OPENTAG ++ t) ++ post) = (pre ++ (OPENTAG ++ t)) ++ post from
    (List.append_assoc pre (OPENTAG ++ t) post).symm, hn]
  exact List.drop_left _ _

/-- Fence stripping of a ```` ```xml ````-wrapped block: the capture group is
the block; whatever follows the match strips independently. -/
theorem strip_xml_wrapped {t post R : Str} (h14 : 14 ≤ t.length)
    (hct : indexOf CLOSETAG (t ++ post) = some (t.length - 14))
    (hpost : tailFenceSearch post = some (0, 4))
    (hrest : stripCodeFences ((PREXML ++ ((OPENTAG ++ t) ++ post)).drop (24 + t.length)) = R) :
    stripCodeFences (PREXML ++ ((OPENTAG ++ t) ++ post)) = (OPENTAG ++ t) ++ R := by
  rw [stripCodeFences_eq]
  simp only [stripMatch_xml_wrapped h14 hct hpost]
  rw [List.take_zero, hrest,
    show (PREXML ++ ((OPENTAG ++ t) ++ post)).drop 7 = (OPENTAG ++ t) ++ post from rfl,
    show 20 + t.length - 7 = (OPENTAG ++ t).length from by
      rw [List.length_append, show OPENTAG.length = 13 from rfl]; omega,
    List.take_left, List.nil_append]

/-- Fence stripping of a plain ```` ``` ````-wrapped block. -/
theorem strip_plain_wrapped {t post R : Str} (h14 : 14 ≤ t.length)
    (hct : indexOf CLOSETAG (t ++ post) = some (t.length - 14))
    (hpost : tailFenceSearch post = some (0, 4))
    (hrest : stripCodeFences ((PREPLAIN ++ ((OPENTAG ++ t) ++ post)).drop (21 + t.length)) = R) :
    stripCodeFences (PREPLAIN ++ ((OPENTAG ++ t) ++ post)) = (OPENTAG ++ t) ++ R := by
  rw [stripCodeFences_eq]
  simp only [stripMatch_plain_wrapped h14 hct hpost]
  rw [List.take_zero, hrest,
    show (PREPLAIN ++ ((OPENTAG ++ t) ++ post)).drop 4 = (OPENTAG ++ t) ++ post from rfl,
    show 17 + t.length - 4 = (OPENTAG ++ t).length from by
      rw [List.length_append, show OPENTAG.length = 13 from rfl]; omega,
    List.take_left, List.nil_append]

/-- Assembling `findCompleteBlock` from its pieces when the text after the
first close tag starts with a whitespace-then-fence marker. -/
theorem find_of_parts {s blk after0 : Str} {k : Nat}
    (hclean : blockMatch (stripCodeFences s) = some blk)
    (hclose : indexOf CLOSETAG s = some k)
    (hafter : s.drop (k + CLOSETAG.length) = after0)
    (hws : wsRun after0 = 1)
    (hpf : FENCE.isPrefixOf (after0.drop 1) = true) :
    findCompleteBlock s = some ⟨blk, k + 18⟩ := by
  simp only [findCompleteBlock, hclean, hclose, hafter, hws, hpf]
  refine congrArg some ?_
  simp only [FindResult.mk.injEq]
  refine ⟨trivial, ?_⟩
  simp only [show CLOSETAG.length = 14 from rfl, show FENCE.length = 3 from rfl]

/-- A ```` ```xml ````-wrapped block is detected as the bare block, consuming
the whole envelope including exactly the one trailing fence. -/
theorem find_wrapped_xml {t : Str}
    (h0 : indexOf OPENTAG (OPENTAG ++ t) = some 0)
    (h2 : indexOf CLOSETAG (OPENTAG ++ t) = some ((OPENTAG ++ t).length - 14))
    (h27 : 27 ≤ (OPENTAG ++ t).length) :
    findCompleteBlock (PREXML ++ ((OPENTAG ++ t) ++ POSTFENCE)) =
      some ⟨OPENTAG ++ t, 24 + t.length⟩ := by
  have hol : OPENTAG.length = 13 := rfl
  have hlen : (OPENTAG ++ t).length = 13 + t.length := by rw [List.length_append, hol]
  have h14 : 14 ≤ t.length := by omega
  have hct : indexOf CLOSETAG (t ++ POSTFENCE) = some (t.length - 14) := close_in_tail h2 h27
  have hrest : stripCodeFences
      ((PREXML ++ ((OPENTAG ++ t) ++ POSTFENCE)).drop (24 + t.length)) = [] := by
    rw [show (24 + t.length) = (PREXML ++ ((OPENTAG ++ t) ++ POSTFENCE)).length from by
      simp only [List.length_append, show PREXML.length = 7 from rfl, hol,
        show POSTFENCE.length = 4 from rfl]
      omega, List.drop_length]
    rfl
  have hclean := strip_xml_wrapped h14 hct rfl hrest
  have hbm : blockMatch
      (stripCodeFences (PREXML ++ ((OPENTAG ++ t) ++ POSTFENCE))) = some (OPENTAG ++ t) := by
    rw [hclean, List.append_nil]
    exact blockMatch_full h0 h2 h27
  have hclosew : indexOf CLOSETAG (PREXML ++ ((OPENTAG ++ t) ++ POSTFENCE)) =
      some (7 + (13 + (t.length - 14))) :=
    close_wrapped h14 hct (fun j hj => no_close_in_prexml j hj)
      (fun m hm => no_close_in_opentag m hm)
  have hafter : (PREXML ++ ((OPENTAG ++ t) ++ POSTFENCE)).drop
      (7 + (13 + (t.length - 14)) + CLOSETAG.length) = POSTFENCE := by
    rw [show 7 + (13 + (t.length - 14)) + CLOSETAG.length = 20 + t.length from by
      rw [show CLOSETAG.length = 14 from rfl]; omega]
    exact drop_envelope (by
      simp only [List.length_append, show PREXML.length = 7 from rfl, hol]; omega)
  rw [find_of_parts hbm hclosew hafter rfl rfl]
  refine congrArg some ?_
  simp only [FindResult.mk.injEq]
  exact ⟨trivial, by omega⟩

/-- A plain ```` ``` ````-wrapped block is detected identically. -/
theorem find_wrapped_plain {t : Str}
    (h0 : indexOf OPENTAG (OPENTAG ++ t) = some 0)
    (h2 : indexOf CLOSETAG (OPENTAG ++ t) = some ((OPENTAG ++ t).length - 14))
    (h27 : 27 ≤ (OPENTAG ++ t).length) :
    findCompleteBlock (PREPLAIN ++ ((OPENTAG ++ t) ++ POSTFENCE)) =
      some ⟨OPENTAG ++ t, 21 + t.length⟩ := by
  have hol : OPENTAG.length = 13 := rfl
  have hlen : (OPENTAG ++ t).length = 13 + t.length := by rw [List.length_append, hol]
  have h14 : 14 ≤ t.length := by omega
  have hct : indexOf CLOSETAG (t ++ POSTFENCE) = some (t.length - 14) := close_in_tail h2 h27
  have hrest : stripCodeFences
      ((PREPLAIN ++ ((OPENTAG ++ t) ++ POSTFENCE)).drop (21 + t.length)) = [] := by
    rw [show (21 + t.length) = (PREPLAIN ++ ((OPENTAG ++ t) ++ POSTFENCE)).length from by
      simp only [List.length_append, show PREPLAIN.length = 4 from rfl, hol,
        show POSTFENCE.length = 4 from rfl]
      omega, List.drop_length]
    rfl
  have hclean := strip_plain_wrapped h14 hct rfl hrest
  have hbm : blockMatch
      (stripCodeFences (PREPLAIN ++ ((OPENTAG ++ t) ++ POSTFENCE))) = some (OPENTAG ++ t) := by
    rw [hclean, List.append_nil]
    exact blockMatch_full h0 h2 h27
  have hclosew : indexOf CLOSETAG (PREPLAIN ++ ((OPENTAG ++ t) ++ POSTFENCE)) =
      some (4 + (13 + (t.length - 14))) :=
    close_wrapped h14 hct (fun j hj => no_close_in_preplain j hj)
      (fun m hm => no_close_in_opentag m hm)
  have hafter : (PREPLAIN ++ ((OPENTAG ++ t) ++ POSTFENCE)).drop
      (4 + (13 + (t.length - 14)) + CLOSETAG.length) = POSTFENCE := by
    rw [show 4 + (13 + (t.length - 14)) + CLOSETAG.length = 17 + t.length from by
      rw [show CLOSETAG.length = 14 from rfl]; omega]
    exact drop_envelope (by
      simp only [List.length_append, show PREPLAIN.length = 4 from rfl, hol]; omega)
  rw [find_of_parts hbm hclosew hafter rfl rfl]
  refine congrArg some ?_
  simp only [FindResult.mk.injEq]
  exact ⟨trivial, by omega⟩

/-- With two stacked trailing fences, detection still returns the bare block
but consumes only the first trailing fence: the second stays in the buffer. -/
theorem find_wrapped_stacked {t : Str}
    (h0 : indexOf OPENTAG (OPENTAG ++ t) = some 0)
    (h2 : indexOf CLOSETAG (OPENTAG ++ t) = some ((OPENTAG ++ t).length - 14))
    (h27 : 27 ≤ (OPENTAG ++ t).length) :
    findCompleteBlock (PREXML ++ ((OPENTAG ++ t) ++ POSTFENCE2)) =
      some ⟨OPENTAG ++ t, 24 + t.length⟩ := by
  have hol : OPENTAG.length = 13 := rfl
  have hlen : (OPENTAG ++ t).length = 13 + t.length := by rw [List.length_append, hol]
  have h14 : 14 ≤ t.length := by omega
  have hct : indexOf CLOSETAG (t ++ POSTFENCE2) = some (t.length - 14) := close_in_tail h2 h27
  have hctf : indexOf CLOSETAG (t ++ POSTFENCE) = some (t.length - 14) := close_in_tail h2 h27
  have hrest : stripCodeFences
      ((PREXML ++ ((OPENTAG ++ t) ++ POSTFENCE2)).drop (24 + t.length)) = POSTFENCE := by
    have hd : (PREXML ++ ((OPENTAG ++ t) ++ POSTFENCE2)).drop (24 + t.length) =
        POSTFENCE2.drop 4 := by
      rw [show PREXML ++ ((OPENTAG ++ t) ++ POSTFENCE2) =
          (PREXML ++ (OPENTAG ++ t)) ++ POSTFENCE2 from
        (List.append_assoc PREXML (OPENTAG ++ t) POSTFENCE2).symm]
      rw [show 24 + t.length = (PREXML ++ (OPENTAG ++ t)).length + 4 from by
        simp only [List.length_append, show PREXML.length = 7 from rfl, hol]; omega]
      exact drop_append_len _ _ _
    rw [hd, show POSTFENCE2.drop 4 = POSTFENCE from rfl]
    decide
  have hclean := strip_xml_wrapped h14 hct rfl hrest
  have hbm : blockMatch
      (stripCodeFences (PREXML ++ ((OPENTAG ++ t) ++ POSTFENCE2))) = some (OPENTAG ++ t) := by
    rw [hclean]
    exact blockMatch_block_append h14 hctf
  have hclosew : indexOf CLOSETAG (PREXML ++ ((OPENTAG ++ t) ++ POSTFENCE2)) =
      some (7 + (13 + (t.length - 14))) :=
    close_wrapped h14 hct (fun j hj => no_close_in_prexml j hj)
      (fun m hm => no_close_in_opentag m hm)
  have hafter : (PREXML ++ ((OPENTAG ++ t) ++ POSTFENCE2)).drop
      (7 + (13 + (t.length - 14)) + CLOSETAG.length) = POSTFENCE2 := by
    rw [show 7 + (13 + (t.length - 14)) + CLOSETAG.length = 20 + t.length from by
      rw [show CLOSETAG.length = 14 from rfl]; omega]
    exact drop_envelope (by
      simp only [List.length_append, show PREXML.length = 7 from rfl, hol]; omega)
  rw [find_of_parts hbm hclosew hafter rfl rfl]
  refine congrArg some ?_
  simp only [FindResult.mk.injEq]
  exact ⟨trivial, by omega⟩

/-- C3: wrapping a well-formed directive block in a code fence (with or
without the `xml` language tag) yields the same detection — the same matched
block text — and the same dispatch as the unwrapped block; the consumed span
covers the whole envelope with exactly one trailing fence marker, so with two
stacked trailing fences only the first is consumed (the second stays
buffered). -/
theorem claim3_fence_tolerance (o : Oracle) (f : Fmt) (base : Chunk) (B : Str)
    (h0 : indexOf OPENTAG B = some 0)
    (h1 : indexOf OPENTAG (B.drop 1) = none)
    (h2 : indexOf CLOSETAG B = some (B.length - 14))
    (h27 : 27 ≤ B.length) :
    findCompleteBlock (PREXML ++ (B ++ POSTFENCE)) =
        some ⟨B, (PREXML ++ (B ++ POSTFENCE)).length⟩ ∧
      findCompleteBlock (PREPLAIN ++ (B ++ POSTFENCE)) =
        some ⟨B, (PREPLAIN ++ (B ++ POSTFENCE)).length⟩ ∧
      findCompleteBlock B = some ⟨B, B.length⟩ ∧
      drainBlocks o f base (PREXML ++ (B ++ POSTFENCE)) = drainBlocks o f base B ∧
      findCompleteBlock (PREXML ++ (B ++ POSTFENCE2)) =
        some ⟨B, (PREXML ++ (B ++ POSTFENCE2)).length - 4⟩ := by
  obtain ⟨t, rfl⟩ : ∃ t, OPENTAG ++ t = B := by
    have hp := indexOf_some_pref h0
    rwa [List.drop_zero] at hp
  have hol : OPENTAG.length = 13 := rfl
  have hlen : (OPENTAG ++ t).length = 13 + t.length := by rw [List.length_append, hol]
  have hL1 : (PREXML ++ ((OPENTAG ++ t) ++ POSTFENCE)).length = 24 + t.length := by
    simp only [List.length_append, show PREXML.length = 7 from rfl, hol,
      show POSTFENCE.length = 4 from rfl]
    omega
  have hL2 : (PREPLAIN ++ ((OPENTAG ++ t) ++ POSTFENCE)).length = 21 + t.length := by
    simp only [List.length_append, show PREPLAIN.length = 4 from rfl, hol,
      show POSTFENCE.length = 4 from rfl]
    omega
  have hL3 : (PREXML ++ ((OPENTAG ++ t) ++ POSTFENCE2)).length = 28 + t.length := by
    simp only [List.length_append, show PREXML.length = 7 from rfl, hol,
      show POSTFENCE2.length = 8 from rfl]
    omega
  have hfw := find_wrapped_xml h0 h2 h27
  have hff := find_full h0 h1 h2 h27
  refine ⟨?_, ?_, hff, ?_, ?_⟩
  · rw [hfw, hL1]
  · rw [find_wrapped_plain h0 h2 h27, hL2]
  · rw [drainBlocks_eq o f base (PREXML ++ ((OPENTAG ++ t) ++ POSTFENCE)),
      drainBlocks_eq o f base (OPENTAG ++ t)]
    simp only [hfw, hff]
    rw [show (24 + t.length) = (PREXML ++ ((OPENTAG ++ t) ++ POSTFENCE)).length from hL1.symm,
      List.drop_length, List.drop_length]
  · rw [find_wrapped_stacked h0 h2 h27, hL3]
    refine congrArg some ?_
    simp only [FindResult.mk.injEq]
    exact ⟨trivial, by omega⟩

/-! ### One loop iteration: skip and dispatch -/

/-- A found block whose path is missing or trims to the empty string (the
source's `!filePath`) is skipped: no output, no call, loop continues past
`endIdx`. -/
theorem drain_skip {o : Oracle} {f : Fmt} {base : Chunk} {buf : Str} {r : FindResult}
    (hfind : findCompleteBlock buf = some r)
    (hpath : (filePathOf r.block).getD [] = []) :
    drainBlocks o f base buf = drainBlocks o f base (buf.drop r.endIdx) := by
  rw [drainBlocks_eq o f base buf]
  simp only [hfind]
  have hcond : filePathOf r.block = none ∨ filePathOf r.block = some [] := by
    cases hfp : filePathOf r.block with
    | none => exact Or.inl rfl
    | some p =>
      right
      rw [hfp] at hpath
      simp only [Option.getD_some] at hpath
      rw [hpath]
  rw [if_pos hcond]

/-- A found block with a usable path dispatches exactly once: one status chunk
is emitted, one tool call is recorded, and the loop continues past `endIdx`. -/
theorem drain_dispatch {o : Oracle} {f : Fmt} {base : Chunk} {buf : Str} {r : FindResult}
    {p : Str} (hfind : findCompleteBlock buf = some r)
    (hp : filePathOf r.block = some p) (hpne : p ≠ []) :
    drainBlocks o f base buf =
      (OutChunk.status base (statusText o f (callOf r.block)) ::
          (drainBlocks o f base (buf.drop r.endIdx)).1,
        (drainBlocks o f base (buf.drop r.endIdx)).2.1,
        callOf r.block :: (drainBlocks o f base (buf.drop r.endIdx)).2.2) := by
  rw [drainBlocks_eq o f base buf]
  simp only [hfind]
  rw [if_neg]
  rintro (hc | hc) <;> rw [hp] at hc
  · cases hc
  · exact hpne (Option.some.injEq _ _ ▸ hc)

/-- C5: a complete block in which no path is recognizable (no path field, or a
path trimming to the empty string) produces no dispatch, no status chunk and
no error: its span is consumed from the buffer and the loop continues on the
remaining stream. -/
theorem claim5_missing_path_discard (o : Oracle) (f : Fmt) (base : Chunk) (buf : Str)
    (r : FindResult) (hfind : findCompleteBlock buf = some r)
    (hpath : (filePathOf r.block).getD [] = []) :
    drainBlocks o f base buf = drainBlocks o f base (buf.drop r.endIdx) :=
  drain_skip hfind hpath

/-- C6: when the dispatched tool call throws, the error is converted into a
status chunk whose text contains `Error: ` followed by the error message, the
call is still recorded exactly once, and processing continues — nothing
propagates. -/
theorem claim6_error_to_status (o : Oracle) (f : Fmt) (base : Chunk) (buf : Str)
    (r : FindResult) (p msg : Str)
    (hfind : findCompleteBlock buf = some r)
    (hp : filePathOf r.block = some p) (hpne : p ≠ [])
    (herr : o (callOf r.block) = Except.error msg) :
    drainBlocks o f base buf =
      (OutChunk.status base ('\n' :: ("Error: ".data ++ (msg ++ ['\n']))) ::
          (drainBlocks o f base (buf.drop r.endIdx)).1,
        (drainBlocks o f base (buf.drop r.endIdx)).2.1,
        callOf r.block :: (drainBlocks o f base (buf.drop r.endIdx)).2.2) ∧
      ("Error: ".data ++ msg) <:+: ('\n' :: ("Error: ".data ++ (msg ++ ['\n'])) : Str) := by
  constructor
  · rw [drain_dispatch hfind hp hpne]
    rw [show statusText o f (callOf r.block) =
      '\n' :: ("Error: ".data ++ (msg ++ ['\n'])) from by
        simp only [statusText, herr]]
  · exact ⟨['\n'], ['\n'], by simp⟩

/-- C7: a complete block with a usable path but no content field is still
dispatched exactly once, with the empty string as content; and every tool call
the loop ever makes — on any buffer, with any tool environment — passes
`confirmation := false`. -/
theorem claim7_empty_content_and_confirmation (o : Oracle) (f : Fmt) (base : Chunk)
    (buf : Str) (r : FindResult) (p : Str)
    (hfind : findCompleteBlock buf = some r)
    (hp : filePathOf r.block = some p) (hpne : p ≠ [])
    (hc : matchGroup CONTENTOPEN CONTENTCLOSE r.block = none) :
    (drainBlocks o f base buf).2.2.head? = some ⟨p, [], false⟩ ∧
      ∀ (o2 : Oracle) (f2 : Fmt) (b2 : Chunk) (buf2 : Str),
        ∀ call ∈ (drainBlocks o2 f2 b2 buf2).2.2, call.confirmation = false := by
  constructor
  · rw [drain_dispatch hfind hp hpne]
    simp only [List.head?_cons, callOf, fileContentOf, hp, hc, Option.map_none',
      Option.getD_some, Option.getD_none]
  · intro o2 f2 b2 buf2 call hcall
    exact drainF_conf_false o2 f2 b2 _ _ call hcall

/-- C10: the path and content handed to the tool are the raw texts between the
field tags with surrounding whitespace trimmed; a whitespace-only path makes
the block be discarded without dispatch, and whitespace-only content is
dispatched as the empty string (`trim` maps it to the empty string, which
`fileContent || ""` leaves unchanged). -/
theorem claim10_trimmed_fields (o : Oracle) (f : Fmt) (base : Chunk) (buf : Str)
    (r : FindResult) (rawp rawc : Str)
    (hfind : findCompleteBlock buf = some r)
    (hp : matchGroup PATHOPEN PATHCLOSE r.block = some rawp)
    (hc : matchGroup CONTENTOPEN CONTENTCLOSE r.block = some rawc) :
    if trim rawp = [] then
      drainBlocks o f base buf = drainBlocks o f base (buf.drop r.endIdx)
    else
      (drainBlocks o f base buf).2.2.head? = some ⟨trim rawp, trim rawc, false⟩ := by
  have hfp : filePathOf r.block = some (trim rawp) := by
    simp only [filePathOf, hp, Option.map_some']
  split
  · next hemp =>
    exact drain_skip hfind (by rw [hfp, hemp]; rfl)
  · next hne =>
    rw [drain_dispatch hfind hfp hne]
    simp only [List.head?_cons, callOf, fileContentOf, hfp, hc, Option.map_some',
      Option.getD_some]

/-- C4: the buffer-advance slip.  With a stray close tag before the block's
open tag, `findCompleteBlock` matches the block, but `endIdx` is computed from
the *first* close-tag occurrence in the buffer, so the buffer advances only
past the stray tag: the same block text is matched and dispatched a second
time.  The buffer below contains exactly one open tag, yet two identical tool
calls are recorded — the action is not invoked at most once per block. -/
theorem claim4_stray_close_double_dispatch :
    (drainBlocks oracle0 fmt0 chunk0
        "</writeToFile><writeToFile><path>a.md</path><content>x</content></writeToFile>".data).2.2 =
      [⟨"a.md".data, "x".data, false⟩, ⟨"a.md".data, "x".data, false⟩] ∧
    indexOf OPENTAG
        "</writeToFile><writeToFile><path>a.md</path><content>x</content></writeToFile>".data =
      some 14 ∧
    indexOf OPENTAG
        ("</writeToFile><writeToFile><path>a.md</path><content>x</content></writeToFile>".data.drop
          15) = none := by
  decide

/-- C8 (counterexample): a block whose body places the content field before
the path field is nevertheless fully extracted and dispatched with both
fields — extraction does not require path to precede content. -/
theorem claim8_counterexample :
    (drainBlocks oracle0 fmt0 chunk0 (revBlock "a.md".data "x".data)).2.2 =
      [⟨"a.md".data, "x".data, false⟩] ∧
    filePathOf (revBlock "a.md".data "x".data) = some "a.md".data ∧
    fileContentOf (revBlock "a.md".data "x".data) = some "x".data := by
  decide

/-- C8 (amended): field extraction runs two independent first-occurrence lazy
searches over the matched block, one for the path field and one for the
content field; a block whose body places the content field before the path
field is extracted just the same, both fields found and trimmed. -/
theorem claim8_order_free_extraction (p c : Str)
    (hpo : indexOf PATHOPEN (revBlock p c) = some (32 + c.length))
    (hpc : indexOf PATHCLOSE ((revBlock p c).drop (32 + c.length + PATHOPEN.length)) =
      some p.length)
    (hco : indexOf CONTENTOPEN (revBlock p c) = some 13)
    (hcc : indexOf CONTENTCLOSE ((revBlock p c).drop (13 + CONTENTOPEN.length)) =
      some c.length) :
    filePathOf (revBlock p c) = some (trim p) ∧
      fileContentOf (revBlock p c) = some (trim c) := by
  have hdp : (revBlock p c).drop (32 + c.length + PATHOPEN.length) =
      p ++ (PATHCLOSE ++ CLOSETAG) := by
    rw [revBlock, show 32 + c.length + PATHOPEN.length =
        OPENTAG.length + (CONTENTOPEN.length + (c.length + 16)) from by
      simp only [show PATHOPEN.length = 6 from rfl, show OPENTAG.length = 13 from rfl,
        show CONTENTOPEN.length = 9 from rfl]
      omega, drop_append_len, drop_append_len, drop_append_len]
    rfl
  have hdc : (revBlock p c).drop (13 + CONTENTOPEN.length) =
      c ++ (CONTENTCLOSE ++ (PATHOPEN ++ (p ++ (PATHCLOSE ++ CLOSETAG)))) := by
    rw [revBlock, show 13 + CONTENTOPEN.length =
        OPENTAG.length + (CONTENTOPEN.length + 0) from by
      simp only [show OPENTAG.length = 13 from rfl]
      omega, drop_append_len, drop_append_len, List.drop_zero]
  have hpc2 : indexOf PATHCLOSE (p ++ (PATHCLOSE ++ CLOSETAG)) = some p.length :=
    hdp ▸ hpc
  have hcc2 : indexOf CONTENTCLOSE
      (c ++ (CONTENTCLOSE ++ (PATHOPEN ++ (p ++ (PATHCLOSE ++ CLOSETAG))))) = some c.length :=
    hdc ▸ hcc
  constructor
  · simp only [filePathOf, matchGroup, hpo, hdp, hpc2, List.take_left, Option.map_some']
  · simp only [fileContentOf, matchGroup, hco, hdc, hcc2, List.take_left, Option.map_some']

/-! ### Witnesses: the theorems applied at concrete inputs -/

theorem claim2_witness :
    statusTexts (processStream oracle0 fmt0 []
        (["<writ".data,
          "eToFile><path>a.md</path><content>hi</content></writeToFile>".data].map strChunk)).1 =
      statusTexts (processStream oracle0 fmt0 []
        [strChunk "<writeToFile><path>a.md</path><content>hi</content></writeToFile>".data]).1 ∧
    (processStream oracle0 fmt0 []
        (["<writ".data,
          "eToFile><path>a.md</path><content>hi</content></writeToFile>".data].map strChunk)).2.2 =
      (processStream oracle0 fmt0 []
        [strChunk "<writeToFile><path>a.md</path><content>hi</content></writeToFile>".data]).2.2 ∧
    (processStream oracle0 fmt0 []
        (["<writ".data,
          "eToFile><path>a.md</path><content>hi</content></writeToFile>".data].map strChunk)).2.1 =
      (processStream oracle0 fmt0 []
        [strChunk "<writeToFile><path>a.md</path><content>hi</content></writeToFile>".data]).2.1 :=
  claim2_split_invariance oracle0 fmt0
    "<writeToFile><path>a.md</path><content>hi</content></writeToFile>".data
    ["<writ".data, "eToFile><path>a.md</path><content>hi</content></writeToFile>".data]
    (by decide) (by decide) (by decide) (by decide) (by decide) (by decide)

theorem claim3_witness :
    findCompleteBlock (PREXML ++
        ("<writeToFile><path>a.md</path><content>hi</content></writeToFile>".data ++
          POSTFENCE)) =
      some ⟨"<writeToFile><path>a.md</path><content>hi</content></writeToFile>".data,
        (PREXML ++
          ("<writeToFile><path>a.md</path><content>hi</content></writeToFile>".data ++
            POSTFENCE)).length⟩ :=
  (claim3_fence_tolerance oracle0 fmt0 chunk0
    "<writeToFile><path>a.md</path><content>hi</content></writeToFile>".data
    (by decide) (by decide) (by decide) (by decide)).1

theorem claim5_witness :
    drainBlocks oracle0 fmt0 chunk0 "<writeToFile><content>x</content></writeToFile>".data =
      drainBlocks oracle0 fmt0 chunk0
        ("<writeToFile><content>x</content></writeToFile>".data.drop 47) :=
  claim5_missing_path_discard oracle0 fmt0 chunk0
    "<writeToFile><content>x</content></writeToFile>".data
    ⟨"<writeToFile><content>x</content></writeToFile>".data, 47⟩ (by decide) (by decide)

theorem claim6_witness :
    (drainBlocks oracleFail fmt0 chunk0
        "<writeToFile><path>a.md</path><content>hi</content></writeToFile>".data =
      (OutChunk.status chunk0 ('\n' :: ("Error: ".data ++ ("disk full".data ++ ['\n']))) ::
          (drainBlocks oracleFail fmt0 chunk0
            ("<writeToFile><path>a.md</path><content>hi</content></writeToFile>".data.drop
              65)).1,
        (drainBlocks oracleFail fmt0 chunk0
          ("<writeToFile><path>a.md</path><content>hi</content></writeToFile>".data.drop
            65)).2.1,
        callOf "<writeToFile><path>a.md</path><content>hi</content></writeToFile>".data ::
          (drainBlocks oracleFail fmt0 chunk0
            ("<writeToFile><path>a.md</path><content>hi</content></writeToFile>".data.drop
              65)).2.2)) ∧
    ("Error: ".data ++ "disk full".data) <:+:
      ('\n' :: ("Error: ".data ++ ("disk full".data ++ ['\n'])) : Str) :=
  claim6_error_to_status oracleFail fmt0 chunk0
    "<writeToFile><path>a.md</path><content>hi</content></writeToFile>".data
    ⟨"<writeToFile><path>a.md</path><content>hi</content></writeToFile>".data, 65⟩
    "a.md".data "disk full".data (by decide) (by decide) (by decide) rfl

theorem claim7_witness :
    (drainBlocks oracle0 fmt0 chunk0
        "<writeToFile><path>a</path></writeToFile>".data).2.2.head? =
      some ⟨"a".data, [], false⟩ ∧
    ∀ (o2 : Oracle) (f2 : Fmt) (b2 : Chunk) (buf2 : Str),
      ∀ call ∈ (drainBlocks o2 f2 b2 buf2).2.2, call.confirmation = false :=
  claim7_empty_content_and_confirmation oracle0 fmt0 chunk0
    "<writeToFile><path>a</path></writeToFile>".data
    ⟨"<writeToFile><path>a</path></writeToFile>".data, 41⟩ "a".data
    (by decide) (by decide) (by decide) (by decide)

theorem claim8_witness :
    filePathOf (revBlock "a.md".data "x".data) = some (trim "a.md".data) ∧
      fileContentOf (revBlock "a.md".data "x".data) = some (trim "x".data) :=
  claim8_order_free_extraction "a.md".data "x".data
    (by decide) (by decide) (by decide) (by decide)

theorem claim9_witness :
    processStream oracle0 fmt0 [] [strChunk "<writeToFile><path>a".data] =
      ([strChunk "<writeToFile><path>a".data].map OutChunk.orig,
        [] ++ totalText [strChunk "<writeToFile><path>a".data], []) :=
  claim9_unterminated oracle0 fmt0 [] [strChunk "<writeToFile><path>a".data] 0
    (by decide) (by decide)

theorem claim10_witness :
    if trim " a.md ".data = [] then
      drainBlocks oracle0 fmt0 chunk0
          "<writeToFile><path> a.md </path><content>  </content></writeToFile>".data =
        drainBlocks oracle0 fmt0 chunk0
          ("<writeToFile><path> a.md </path><content>  </content></writeToFile>".data.drop 67)
    else
      (drainBlocks oracle0 fmt0 chunk0
          "<writeToFile><path> a.md </path><content>  </content></writeToFile>".data).2.2.head? =
        some ⟨trim " a.md ".data, trim "  ".data, false⟩ :=
  claim10_trimmed_fields oracle0 fmt0 chunk0
    "<writeToFile><path> a.md </path><content>  </content></writeToFile>".data
    ⟨"<writeToFile><path> a.md </path><content>  </content></writeToFile>".data, 67⟩
    " a.md ".data "  ".data (by decide) (by decide) (by decide)

end ActionBlockStreamer
